import Mathlib

/-! Shallow embedding of the pipedream multipart-upload library (package
pipedream: MultipartUpload, Send/run, uploadPart, complete, Abort,
EnglishJoin).  The S3 backend, the io.Reader and net/http content sniffing
are external collaborators and are modelled as oracles: a Backend record of
call results, a list of read results, and a detect function standing for
http.DetectContentType.  The channel returned by Send is modelled as the
ordered list of items (events sent and backend calls made) produced by one
invocation of run.  A nil-pointer dereference of the session descriptor
m.res (a Go panic) is modelled by the Outcome.nilDeref constructor naming
the method in which the dereference happens, together with the items
produced before it. -/

namespace Pipedream

/-- Source constant Kilobyte = 1024. -/
def Kilobyte : Nat := 1024

/-- Source constant Megabyte = Kilobyte * 1024. -/
def Megabyte : Nat := Kilobyte * 1024

/-- Source constant DefaultRegion. -/
def DefaultRegion : String := "us-east-1"

/-- One entry of the completed-parts list (s3.CompletedPart: ETag, PartNumber). -/
structure CompletedPart where
  etag : String
  partNumber : Nat
deriving DecidableEq, Repr

/-- The fields of s3.CreateMultipartUploadOutput that the source reads
(m.res.Bucket, m.res.Key, m.res.UploadId).  The nil pointer itself is
modelled as Option.none at the use sites. -/
structure CreateOut where
  bucket : String
  key : String
  uploadId : String
deriving DecidableEq, Repr

/-- An Event sent on the channel returned by Send (source types Progress,
Retry, Complete, Error).  The Complete payload carries the completion
result, none when the result pointer is nil; errors are their messages. -/
inductive Event where
  | progress (partNumber bytes : Nat)
  | retry (partNumber retryNumber maxRetries : Nat)
  | complete (bytes : Nat) (result : Option String)
  | error (msg : String)
deriving DecidableEq, Repr

/-- A backend (S3 SDK) call made during the upload: CreateMultipartUpload,
UploadPart (part number and attempt number), CompleteMultipartUpload (with
the accumulated parts list), AbortMultipartUpload. -/
inductive Call where
  | create (bucket key contentType : String)
  | upload (partNumber tryNum : Nat)
  | completeCall (bucket key uploadId : String) (parts : List CompletedPart)
  | abortUpload
deriving DecidableEq, Repr

/-- One observable step of a run: an event sent on the channel, or a
backend call issued. -/
inductive Item where
  | evt (e : Event)
  | call (c : Call)
deriving DecidableEq, Repr

/-- Oracle describing the backend collaborator: the result of the (single)
CreateMultipartUpload call, of UploadPart per (partNumber, tryNum), of
CompleteMultipartUpload and of AbortMultipartUpload. -/
structure Backend where
  createRes : Except String CreateOut
  uploadRes : Nat → Nat → Except String String
  completeRes : Except String String
  abortRes : Except String Unit

/-- Result of one m.reader.Read call: ok with the bytes read, or a non-EOF
error.  End of stream (io.EOF) is modelled as the end of the list. -/
inductive ReadResult where
  | ok (data : List Nat)
  | err (e : String)
deriving DecidableEq, Repr

/-- Result of one invocation of run: the ordered items produced, or a nil
dereference of m.res (Go panic) inside the named method, with the items
produced before the panic. -/
inductive Outcome where
  | done (items : List Item)
  | nilDeref (site : String) (items : List Item)
deriving DecidableEq, Repr

/-- The items a run produced (also for a run that panicked). -/
def Outcome.items : Outcome → List Item
  | .done l => l
  | .nilDeref s l => l

/-- Prepend already-produced items to the rest of a run. -/
def Outcome.prependItems (its : List Item) : Outcome → Outcome
  | .done l => .done (its ++ l)
  | .nilDeref s l => .nilDeref s (its ++ l)

/-- The configuration fields of the MultipartUpload struct. -/
structure MultipartUpload where
  endpoint : String := ""
  region : String := ""
  bucket : String := ""
  accessKey : String := ""
  secretKey : String := ""
  maxRetries : Nat := 0
  maxPartSize : Nat := 0
deriving DecidableEq, Repr

/-- The default block at the top of run: MaxRetries 3, MaxPartSize 5 MiB,
Endpoint nyc3.digitaloceanspaces.com, Region DefaultRegion, each applied
only when the field is zero-valued. -/
def applyDefaults (m : MultipartUpload) : MultipartUpload :=
  { m with
    maxRetries := if m.maxRetries = 0 then 3 else m.maxRetries,
    maxPartSize := if m.maxPartSize = 0 then Megabyte * 5 else m.maxPartSize,
    endpoint := if m.endpoint = "" then "nyc3.digitaloceanspaces.com" else m.endpoint,
    region := if m.region = "" then DefaultRegion else m.region }

/-- The missing list built by run's validation block, in source order:
AccessKey, SecretKey, Bucket. -/
def missingFields (m : MultipartUpload) : List String :=
  (if m.accessKey = "" then ["AccessKey"] else []) ++
  (if m.secretKey = "" then ["SecretKey"] else []) ++
  (if m.bucket = "" then ["Bucket"] else [])

/-- One step of EnglishJoin's indexed loop over (index, word); n is the
total number of words. -/
def englishJoinStep (n : Nat) (oxfordComma : Bool) (acc : String) (iw : Nat × String) : String :=
  if iw.1 = 0 then acc ++ iw.2
  else if 1 < n ∧ iw.1 = n - 1 then
    (if oxfordComma ∧ 2 < iw.1 then acc ++ "," else acc) ++ " and" ++ " " ++ iw.2
  else acc ++ ", " ++ iw.2

/-- Source function EnglishJoin: joins words with commas and the word
"and"; the Oxford comma is inserted only when oxfordComma is set and the
last index is greater than 2. -/
def englishJoin (words : List String) (oxfordComma : Bool) : String :=
  words.enum.foldl (englishJoinStep words.length oxfordComma) ""

/-- Result of uploadPart: a completed part, a failure (the error returned
after the last attempt), or the fallthrough return after the retry loop
(the could-not-upload-part branch the source marks as unreachable). -/
inductive UpRes where
  | part (p : CompletedPart)
  | failed (e : String)
  | unreachable
deriving DecidableEq, Repr

/-- The retry loop of uploadPart (for tryNum <= m.MaxRetries), as a
recursion on the number of remaining loop iterations (fuel), invoked below
with fuel = mr + 1 - tryNum so that fuel = 0 exactly when tryNum > mr.
p is the partNum argument; cur is m.currentPartNumber, the receiver field
used for the PartNumber of the Retry event.  Each attempt issues an
UploadPart call; on failure at the last attempt the error is returned; on
a non-final failure a Retry event with retryNumber = tryNum is emitted and
the loop re-enters with tryNum + 1; on success a CompletedPart with the
part number and the backend ETag is returned. -/
def uploadPartFuel (b : Backend) (p cur mr : Nat) : Nat → Nat → List Item × UpRes
  | t, 0 => ([], UpRes.unreachable)
  | tryNum, fuel + 1 =>
    match b.uploadRes p tryNum with
    | Except.error e =>
      if tryNum = mr then ([Item.call (Call.upload p tryNum)], UpRes.failed e)
      else
        let r := uploadPartFuel b p cur mr (tryNum + 1) fuel
        (Item.call (Call.upload p tryNum) :: Item.evt (Event.retry cur tryNum mr) :: r.1, r.2)
    | Except.ok etag => ([Item.call (Call.upload p tryNum)], UpRes.part ⟨etag, p⟩)

/-- Source method uploadPart: the loop starts at tryNum = 1 and runs while
tryNum <= mr, i.e. for mr + 1 - 1 = mr iterations at most. -/
def uploadPart (b : Backend) (p cur mr : Nat) : List Item × UpRes :=
  uploadPartFuel b p cur mr 1 mr

/-- The combined message built by run when an abort performed after an
upload or read error itself fails (fmt.Errorf format string). -/
def combineMsg (e ae : String) : String :=
  "upload error: " ++ e ++ ", as well as an error aborting the upload: " ++ ae

/-- The abort-then-error tail of run's two failure branches: Abort is
called first; if it fails the combined message is emitted, otherwise the
original cause alone. -/
def abortItems (b : Backend) (e : String) : List Item :=
  Item.call Call.abortUpload ::
    (match b.abortRes with
     | Except.error ae => [Item.evt (Event.error (combineMsg e ae))]
     | Except.ok u => [Item.evt (Event.error e)])

/-- The part-upload loop of run (source lines 219-287), with state
totalBytes, currentPartNumber, m.res (none = nil pointer) and
completedParts.  A read error triggers Abort (a nil m.res makes Abort
dereference nil); end of stream falls through to complete, which
dereferences m.res when it is still nil; a successful read lazily issues
CreateMultipartUpload while m.res is nil, then uploads the chunk,
emitting Progress and accumulating the part on success, aborting on
failure.  After a failed completion call the source emits Error and then
still emits Complete (there is no return in that branch). -/
def runLoop (m : MultipartUpload) (path : String) (b : Backend) (detect : List Nat → String) :
    List ReadResult → Nat → Nat → Option CreateOut → List CompletedPart → Outcome
  | [], totalBytes, pn, res, parts =>
    match res with
    | none => Outcome.nilDeref "complete" []
    | some r =>
      Outcome.done (Item.call (Call.completeCall r.bucket r.key r.uploadId parts) ::
        match b.completeRes with
        | Except.error e =>
          [Item.evt (Event.error e), Item.evt (Event.complete totalBytes none)]
        | Except.ok out => [Item.evt (Event.complete totalBytes (some out))])
  | ReadResult.err e :: rest, totalBytes, pn, res, parts =>
    match res with
    | none => Outcome.nilDeref "Abort" []
    | some r => Outcome.done (abortItems b e)
  | ReadResult.ok c :: rest, totalBytes, pn, res, parts =>
    match (match res with
           | none => ([Item.call (Call.create m.bucket path (detect c))], b.createRes)
           | some r => ([], Except.ok r)) with
    | (createItems, Except.error e) => Outcome.done (createItems ++ [Item.evt (Event.error e)])
    | (createItems, Except.ok r) =>
      match uploadPart b pn pn m.maxRetries with
      | (upItems, UpRes.part p) =>
        Outcome.prependItems
          (createItems ++ upItems ++ [Item.evt (Event.progress pn c.length)])
          (runLoop m path b detect rest (totalBytes + c.length) (pn + 1) (some r)
            (parts ++ [p]))
      | (upItems, UpRes.failed e) =>
        Outcome.done (createItems ++ upItems ++ abortItems b e)
      | (upItems, UpRes.unreachable) =>
        Outcome.done (createItems ++ upItems ++ abortItems b "could not upload part")

/-- Source method run (invoked by Send on a fresh goroutine): apply
defaults, validate the required fields (emitting a single Error built from
EnglishJoin over the missing names and stopping), then run the part loop
with totalBytes = 0, currentPartNumber = 1, nil m.res and no parts. -/
def run (m0 : MultipartUpload) (path : String) (reads : List ReadResult) (b : Backend)
    (detect : List Nat → String) : Outcome :=
  let m := applyDefaults m0
  if 0 < (missingFields m).length then
    Outcome.done [Item.evt (Event.error ("missing " ++ englishJoin (missingFields m) true))]
  else
    runLoop m path b detect reads 0 1 none []

/-- Chunker model: the reads produced by a well-behaved io.Reader over a
source of bytes data into the buffer of size P made by run — each read
returns min(P, remaining) bytes, then end of stream.  Structured on the
length of the remaining data as fuel. -/
def chunkFuel (P : Nat) : Nat → List Nat → List (List Nat)
  | 0, l => []
  | fuel + 1, [] => []
  | fuel + 1, d :: ds => (d :: ds).take P :: chunkFuel P fuel ((d :: ds).drop P)

/-- The chunk sequence of a byte source for part size P. -/
def chunkList (data : List Nat) (P : Nat) : List (List Nat) :=
  chunkFuel P data.length data

/-- Whether an Except is an error. -/
def isErr {α : Type} : Except String α → Bool
  | Except.error e => true
  | Except.ok a => false

/-- The message of an erroneous Except (empty string on ok). -/
def errOf {α : Type} : Except String α → String
  | Except.error e => e
  | Except.ok a => ""

/-- The part number an item carries, for Progress and Retry events. -/
def partNumOf : Item → Option Nat
  | Item.evt (Event.progress p n) => some p
  | Item.evt (Event.retry p r mr) => some p
  | i => none

/-- The part numbers observed in the events of a trace, in order. -/
def partNums (l : List Item) : List Nat := l.filterMap partNumOf

/-- The part number of a Progress event. -/
def progressNumOf : Item → Option Nat
  | Item.evt (Event.progress p n) => some p
  | i => none

/-- The part numbers of the Progress events of a trace, in order. -/
def progressNums (l : List Item) : List Nat := l.filterMap progressNumOf

/-- The Bytes field of an item when it is a Progress event, else 0. -/
def progressBytesOf : Item → Nat
  | Item.evt (Event.progress p n) => n
  | i => 0

/-- The sum of the Bytes fields over the Progress events of a trace. -/
def progressBytes (l : List Item) : Nat := (l.map progressBytesOf).sum

/-- The backend calls of a trace, in order. -/
def callsOf (l : List Item) : List Call :=
  l.filterMap fun i => match i with
    | Item.call c => some c
    | Item.evt e => none

/-- The CreateMultipartUpload calls of a trace. -/
def createCalls (l : List Item) : List Call :=
  l.filterMap fun i => match i with
    | Item.call (Call.create bk k ct) => some (Call.create bk k ct)
    | i => none

/-- The (partNumber, retryNumber, maxRetries) triples of the Retry events
of a trace, in order. -/
def retryTriples (l : List Item) : List (Nat × Nat × Nat) :=
  l.filterMap fun i => match i with
    | Item.evt (Event.retry p r mr) => some (p, r, mr)
    | i => none

/-- Successive part numbers observed on the channel stay equal or grow by
exactly one (no gaps). -/
def stepRel (a b : Nat) : Prop := b = a ∨ b = a + 1

/-- A valid test configuration. -/
def cfgA : MultipartUpload := { bucket := "b", accessKey := "a", secretKey := "s" }

/-- A valid test configuration with an explicit part size of 4 bytes. -/
def cfgB : MultipartUpload :=
  { bucket := "b", accessKey := "a", secretKey := "s", maxPartSize := 4 }

/-- A test create result. -/
def crA : CreateOut := ⟨"rb", "rk", "uid"⟩

/-- A test content-type sniffer. -/
def detA : List Nat → String := fun l => "ct"

/-- Backend whose completion call fails and everything else succeeds. -/
def bComplFail : Backend :=
  { createRes := Except.ok crA
    uploadRes := fun p t => Except.ok "et"
    completeRes := Except.error "boom"
    abortRes := Except.ok () }

/-- Backend where every call fails. -/
def bAllFail : Backend :=
  { createRes := Except.error "nope"
    uploadRes := fun p t => Except.error "up"
    completeRes := Except.error "c"
    abortRes := Except.error "ab" }

/-- Backend where the first attempt of every part fails and the second
succeeds; create and complete succeed. -/
def bRetryOnce : Backend :=
  { createRes := Except.ok crA
    uploadRes := fun p t => if t = 1 then Except.error "u1" else Except.ok "et"
    completeRes := Except.ok "fin"
    abortRes := Except.ok () }

/-- Backend where every call succeeds. -/
def bAllOk : Backend :=
  { createRes := Except.ok crA
    uploadRes := fun p t => Except.ok "et"
    completeRes := Except.ok "fin"
    abortRes := Except.ok () }

/-- An item produced inside the retry loop of uploadPart: an UploadPart
call for the part, or a Retry event for the current part number. -/
def upShape (p cur mr : Nat) (it : Item) : Prop :=
  (∃ i, it = Item.call (Call.upload p i)) ∨ ∃ i, it = Item.evt (Event.retry cur i mr)

@[simp]
theorem applyDefaults_accessKey (m : MultipartUpload) :
    (applyDefaults m).accessKey = m.accessKey := rfl

@[simp]
theorem applyDefaults_secretKey (m : MultipartUpload) :
    (applyDefaults m).secretKey = m.secretKey := rfl

@[simp]
theorem applyDefaults_bucket (m : MultipartUpload) :
    (applyDefaults m).bucket = m.bucket := rfl

theorem missingFields_applyDefaults (m : MultipartUpload) :
    missingFields (applyDefaults m) = missingFields m := rfl

theorem one_le_applyDefaults_maxRetries (m : MultipartUpload) :
    1 ≤ (applyDefaults m).maxRetries := by
  simp only [applyDefaults]
  split <;> omega

@[simp]
theorem items_prependItems (its : List Item) (o : Outcome) :
    (Outcome.prependItems its o).items = its ++ o.items := by
  cases o <;> rfl

theorem run_eq_runLoop (m : MultipartUpload) (path : String) (reads : List ReadResult)
    (b : Backend) (detect : List Nat → String)
    (h1 : m.accessKey ≠ "") (h2 : m.secretKey ≠ "") (h3 : m.bucket ≠ "") :
    run m path reads b detect = runLoop (applyDefaults m) path b detect reads 0 1 none [] := by
  simp [run, missingFields_applyDefaults, missingFields, h1, h2, h3]

theorem chunkFuel_nil (P fuel : Nat) : chunkFuel P fuel [] = [] := by
  cases fuel <;> rfl

theorem uploadPartFuel_ne_unreachable (b : Backend) (p cur mr : Nat) :
    ∀ fuel tryNum, fuel = mr + 1 - tryNum → tryNum ≤ mr →
      (uploadPartFuel b p cur mr tryNum fuel).2 ≠ UpRes.unreachable := by
  intro fuel
  induction fuel with
  | zero => intro tryNum hf ht; omega
  | succ fuel ih =>
    intro tryNum hf ht
    cases h : b.uploadRes p tryNum with
    | ok v => simp [uploadPartFuel, h]
    | error e =>
      by_cases htm : tryNum = mr
      · subst htm; simp [uploadPartFuel, h]
      · have h2 : tryNum + 1 ≤ mr := by omega
        have hf2 : fuel = mr + 1 - (tryNum + 1) := by omega
        simp only [uploadPartFuel, h, if_neg htm]
        exact ih (tryNum + 1) hf2 h2

/-- Claim C10: for every MaxRetries at least 1, the fallthrough return
after the retry loop of uploadPart (the could-not-upload-part error) is
unreachable: the loop always exits through one of its return statements. -/
theorem uploadPart_fallthrough_unreachable (b : Backend) (p cur mr : Nat) (h : 1 ≤ mr) :
    (uploadPart b p cur mr).2 ≠ UpRes.unreachable :=
  uploadPartFuel_ne_unreachable b p cur mr mr 1 (by omega) h

/-- Witness for claim C10 at MaxRetries = 3 with an always-failing backend. -/
theorem uploadPart_fallthrough_unreachable_witness :
    (uploadPart bAllFail 2 2 3).2 ≠ UpRes.unreachable :=
  uploadPart_fallthrough_unreachable bAllFail 2 2 3 (by decide)

/-- Claim C9: for an empty input (first read is end-of-stream), run leaves
the chunk loop with the session descriptor still nil and nonetheless calls
complete, which dereferences the nil descriptor; no event at all, in
particular no terminal event, is produced. -/
theorem empty_input_nil_deref_in_complete (m : MultipartUpload) (path : String)
    (b : Backend) (detect : List Nat → String)
    (h1 : m.accessKey ≠ "") (h2 : m.secretKey ≠ "") (h3 : m.bucket ≠ "") :
    run m path [] b detect = Outcome.nilDeref "complete" [] := by
  rw [run_eq_runLoop m path [] b detect h1 h2 h3]
  rfl

/-- Witness for claim C9 on a concrete valid configuration. -/
theorem empty_input_nil_deref_in_complete_witness :
    run cfgA "p" [] bAllOk detA = Outcome.nilDeref "complete" [] :=
  empty_input_nil_deref_in_complete cfgA "p" bAllOk detA (by decide) (by decide) (by decide)

/-- Claim C5: when any of AccessKey, SecretKey, Bucket is empty, run emits
exactly one immediate terminal Error whose message joins the missing field
names, and makes no backend call; with AccessKey and Bucket missing the
message is missing AccessKey and Bucket. -/
theorem missing_fields_immediate_error (m : MultipartUpload) (path : String)
    (reads : List ReadResult) (b : Backend) (detect : List Nat → String)
    (h : m.accessKey = "" ∨ m.secretKey = "" ∨ m.bucket = "") :
    run m path reads b detect
      = Outcome.done [Item.evt (Event.error ("missing " ++ englishJoin (missingFields m) true))]
    ∧ callsOf (run m path reads b detect).items = []
    ∧ (m.accessKey = "" → m.bucket = "" → m.secretKey ≠ "" →
        run m path reads b detect
          = Outcome.done [Item.evt (Event.error "missing AccessKey and Bucket")]) := by
  have hne : missingFields m ≠ [] := by
    rcases h with h | h | h <;> simp [missingFields, h]
  have hlen : 0 < (missingFields m).length := List.length_pos.mpr hne
  have hrun : run m path reads b detect
      = Outcome.done [Item.evt (Event.error ("missing " ++ englishJoin (missingFields m) true))] := by
    simp [run, missingFields_applyDefaults, hlen]
  refine ⟨hrun, ?_, ?_⟩
  · rw [hrun]; rfl
  · intro ha hb hs
    rw [hrun]
    have hm : missingFields m = ["AccessKey", "Bucket"] := by
      simp [missingFields, ha, hb, hs]
    rw [hm]
    rfl

/-- Witness for claim C5: empty AccessKey and Bucket on a concrete
configuration yield the single terminal Error listing both, and no call. -/
theorem missing_fields_immediate_error_witness :
    run { cfgA with accessKey := "", bucket := "" } "p" [ReadResult.ok [1]] bAllOk detA
      = Outcome.done [Item.evt (Event.error "missing AccessKey and Bucket")]
    ∧ callsOf (run { cfgA with accessKey := "", bucket := "" } "p" [ReadResult.ok [1]] bAllOk detA).items
      = [] := by
  have h := missing_fields_immediate_error { cfgA with accessKey := "", bucket := "" } "p"
    [ReadResult.ok [1]] bAllOk detA (Or.inl rfl)
  exact ⟨h.2.2 rfl rfl (by decide), h.2.1⟩

/-- Claim C1 (code bug): when the completion call fails, run emits an Error
event and then, missing a return, still emits a Complete event afterwards:
the trace ends with Error then Complete instead of a single terminal
Error. -/
theorem completion_failure_emits_complete_after_error :
    (run cfgA "p" [ReadResult.ok [1, 2, 3]] bComplFail detA).items =
      [Item.call (Call.create "b" "p" "ct"),
       Item.call (Call.upload 1 1),
       Item.evt (Event.progress 1 3),
       Item.call (Call.completeCall "rb" "rk" "uid" [⟨"et", 1⟩]),
       Item.evt (Event.error "boom"),
       Item.evt (Event.complete 3 none)] := by
  rfl

/-- Counterexample to claim C3 as stated: when the very first read fails
(before any successful chunk, so before any remote session exists), run
does not invoke Abort on the backend and emits no Error event at all; it
dereferences the nil session descriptor inside Abort. -/
theorem read_error_before_session_panics :
    run cfgA "p" [ReadResult.err "boom"] bAllOk detA = Outcome.nilDeref "Abort" []
    ∧ (run cfgA "p" [ReadResult.err "boom"] bAllOk detA).items = [] := by
  exact ⟨rfl, rfl⟩

/-- Counterexample to claim C8 as stated: a part whose first attempt fails
and second succeeds makes the channel carry part number 1 twice (once on
the Retry event, once on the Progress event), so the observed part numbers
are not strictly increasing. -/
theorem retry_repeats_part_number :
    partNums (run cfgA "p" [ReadResult.ok [7]] bRetryOnce detA).items = [1, 1]
    ∧ ¬ List.Chain' (fun a b => a < b)
        (partNums (run cfgA "p" [ReadResult.ok [7]] bRetryOnce detA).items) := by
  constructor
  · rfl
  · intro hch
    rw [show partNums (run cfgA "p" [ReadResult.ok [7]] bRetryOnce detA).items = [1, 1] from rfl]
      at hch
    rcases List.chain'_cons.mp hch with ⟨hlt, hrest⟩
    exact absurd hlt (by omega)

theorem uploadPartFuel_all_fail (b : Backend) (p cur mr : Nat) :
    ∀ fuel tryNum, fuel = mr + 1 - tryNum → 1 ≤ tryNum → tryNum ≤ mr →
      (∀ i, tryNum ≤ i → i ≤ mr → isErr (b.uploadRes p i) = true) →
      retryTriples (uploadPartFuel b p cur mr tryNum fuel).1
          = (List.range' tryNum (mr - tryNum)).map (fun i => (cur, i, mr))
      ∧ (uploadPartFuel b p cur mr tryNum fuel).2 = UpRes.failed (errOf (b.uploadRes p mr)) := by
  intro fuel
  induction fuel with
  | zero => intro tryNum hf h1 hle hall; omega
  | succ fuel ih =>
    intro tryNum hf h1 hle hall
    have herr := hall tryNum (le_refl _) hle
    cases h : b.uploadRes p tryNum with
    | ok v => rw [h] at herr; simp [isErr] at herr
    | error e =>
      by_cases htm : tryNum = mr
      · subst htm
        simp [uploadPartFuel, h, retryTriples, errOf, Nat.sub_self]
      · have h2 : tryNum + 1 ≤ mr := by omega
        have hf2 : fuel = mr + 1 - (tryNum + 1) := by omega
        obtain ⟨iha, ihb⟩ := ih (tryNum + 1) hf2 (by omega) h2
          (fun i hi hi2 => hall i (by omega) hi2)
        have hsub : mr - tryNum = (mr - (tryNum + 1)) + 1 := by omega
        constructor
        · simp only [uploadPartFuel, h, if_neg htm]
          simp only [retryTriples, List.filterMap_cons] at iha ⊢
          rw [iha, hsub, List.range'_succ]
          simp
        · simp only [uploadPartFuel, h, if_neg htm]
          exact ihb

theorem uploadPartFuel_success (b : Backend) (p cur mr : Nat) (s : Nat) (t : String)
    (hs : s ≤ mr) (hok : b.uploadRes p s = Except.ok t) :
    ∀ fuel tryNum, fuel = mr + 1 - tryNum → 1 ≤ tryNum → tryNum ≤ s →
      (∀ i, tryNum ≤ i → i < s → isErr (b.uploadRes p i) = true) →
      retryTriples (uploadPartFuel b p cur mr tryNum fuel).1
          = (List.range' tryNum (s - tryNum)).map (fun i => (cur, i, mr))
      ∧ (uploadPartFuel b p cur mr tryNum fuel).2 = UpRes.part ⟨t, p⟩ := by
  intro fuel
  induction fuel with
  | zero => intro tryNum hf h1 hts hall; omega
  | succ fuel ih =>
    intro tryNum hf h1 hts hall
    by_cases hteq : tryNum = s
    · subst hteq
      simp [uploadPartFuel, hok, retryTriples, Nat.sub_self]
    · have hlt : tryNum < s := by omega
      have herr := hall tryNum (le_refl _) hlt
      cases h : b.uploadRes p tryNum with
      | ok v => rw [h] at herr; simp [isErr] at herr
      | error e =>
        have htm : tryNum ≠ mr := by omega
        have hf2 : fuel = mr + 1 - (tryNum + 1) := by omega
        obtain ⟨iha, ihb⟩ := ih (tryNum + 1) hf2 (by omega) (by omega)
          (fun i hi hi2 => hall i (by omega) hi2)
        have hsub : s - tryNum = (s - (tryNum + 1)) + 1 := by omega
        constructor
        · simp only [uploadPartFuel, h, if_neg htm]
          simp only [retryTriples, List.filterMap_cons] at iha ⊢
          rw [iha, hsub, List.range'_succ]
          simp
        · simp only [uploadPartFuel, h, if_neg htm]
          exact ihb

theorem uploadPartFuel_retry_count (b : Backend) (p cur mr : Nat) :
    ∀ fuel tryNum, fuel = mr + 1 - tryNum →
      (retryTriples (uploadPartFuel b p cur mr tryNum fuel).1).length ≤ mr - tryNum := by
  intro fuel
  induction fuel with
  | zero => intro tryNum hf; simp [uploadPartFuel, retryTriples]
  | succ fuel ih =>
    intro tryNum hf
    cases h : b.uploadRes p tryNum with
    | ok v => simp [uploadPartFuel, h, retryTriples]
    | error e =>
      by_cases htm : tryNum = mr
      · subst htm; simp [uploadPartFuel, h, retryTriples]
      · have hle : tryNum < mr := by omega
        have := ih (tryNum + 1) (by omega)
        simp only [uploadPartFuel, h, if_neg htm, retryTriples, List.filterMap_cons] at this ⊢
        simp only [List.length_cons]
        omega

/-- Claim C4: uploadPart performs up to MaxRetries attempts; the Retry
events carry retryNumber equal to the attempt number together with the
part number and MaxRetries; after a failure of the last attempt the
underlying failure is returned; at most MaxRetries - 1 Retry events are
emitted; a success at attempt s stops the loop with the completed part
after exactly s - 1 Retry events. -/
theorem uploadPart_retry_characterization (b : Backend) (p mr : Nat) (h : 1 ≤ mr) :
    (retryTriples (uploadPart b p p mr).1).length ≤ mr - 1
    ∧ ((∀ i, 1 ≤ i → i ≤ mr → isErr (b.uploadRes p i) = true) →
        retryTriples (uploadPart b p p mr).1
            = (List.range' 1 (mr - 1)).map (fun i => (p, i, mr))
        ∧ (uploadPart b p p mr).2 = UpRes.failed (errOf (b.uploadRes p mr)))
    ∧ (∀ s t, 1 ≤ s → s ≤ mr → (∀ i, 1 ≤ i → i < s → isErr (b.uploadRes p i) = true) →
        b.uploadRes p s = Except.ok t →
        retryTriples (uploadPart b p p mr).1
            = (List.range' 1 (s - 1)).map (fun i => (p, i, mr))
        ∧ (uploadPart b p p mr).2 = UpRes.part ⟨t, p⟩) := by
  refine ⟨?_, ?_, ?_⟩
  · exact uploadPartFuel_retry_count b p p mr mr 1 (by omega)
  · intro hall
    exact uploadPartFuel_all_fail b p p mr mr 1 (by omega) (le_refl 1) h hall
  · intro s t h1 hs hall hok
    exact uploadPartFuel_success b p p mr s t hs hok mr 1 (by omega) (le_refl 1) h1 hall

/-- Witness for claim C4: with MaxRetries = 3 and a backend failing every
attempt, part 2 yields exactly the Retry triples (2,1,3), (2,2,3) and the
underlying failure of the third attempt. -/
theorem uploadPart_retry_characterization_witness :
    retryTriples (uploadPart bAllFail 2 2 3).1 = [(2, 1, 3), (2, 2, 3)]
    ∧ (uploadPart bAllFail 2 2 3).2 = UpRes.failed "up" :=
  (uploadPart_retry_characterization bAllFail 2 3 (by decide)).2.1 (fun i h1 h2 => rfl)

theorem uploadPartFuel_shape (b : Backend) (p cur mr : Nat) :
    ∀ fuel tryNum, ∀ it ∈ (uploadPartFuel b p cur mr tryNum fuel).1, upShape p cur mr it := by
  intro fuel
  induction fuel with
  | zero => intro tryNum it hit; simp [uploadPartFuel] at hit
  | succ fuel ih =>
    intro tryNum it hit
    cases h : b.uploadRes p tryNum with
    | ok v =>
      simp [uploadPartFuel, h] at hit
      exact Or.inl ⟨tryNum, hit⟩
    | error e =>
      by_cases htm : tryNum = mr
      · subst htm
        simp [uploadPartFuel, h] at hit
        exact Or.inl ⟨_, hit⟩
      · simp only [uploadPartFuel, h, if_neg htm, List.mem_cons] at hit
        rcases hit with rfl | rfl | hit
        · exact Or.inl ⟨tryNum, rfl⟩
        · exact Or.inr ⟨tryNum, rfl⟩
        · exact ih (tryNum + 1) it hit

theorem uploadPartFuel_part_number (b : Backend) (p cur mr : Nat) :
    ∀ fuel tryNum q, (uploadPartFuel b p cur mr tryNum fuel).2 = UpRes.part q →
      q.partNumber = p := by
  intro fuel
  induction fuel with
  | zero => intro tryNum q hq; simp [uploadPartFuel] at hq
  | succ fuel ih =>
    intro tryNum q hq
    cases h : b.uploadRes p tryNum with
    | ok v =>
      simp [uploadPartFuel, h] at hq
      rw [← hq]
    | error e =>
      by_cases htm : tryNum = mr
      · subst htm; simp [uploadPartFuel, h] at hq
      · simp only [uploadPartFuel, h, if_neg htm] at hq
        exact ih (tryNum + 1) q hq

theorem shaped_partNums (p cur mr : Nat) (l : List Item)
    (h : ∀ it ∈ l, upShape p cur mr it) : ∀ x ∈ partNums l, x = cur := by
  intro x hx
  rcases List.mem_filterMap.mp hx with ⟨it, hit, hpn⟩
  rcases h it hit with ⟨i, rfl⟩ | ⟨i, rfl⟩
  · simp [partNumOf] at hpn
  · simp [partNumOf] at hpn
    omega

theorem shaped_progressNums (p cur mr : Nat) (l : List Item)
    (h : ∀ it ∈ l, upShape p cur mr it) : progressNums l = [] := by
  refine List.filterMap_eq_nil_iff.mpr (fun it hit => ?_)
  rcases h it hit with ⟨i, rfl⟩ | ⟨i, rfl⟩ <;> rfl

theorem shaped_progressBytes (p cur mr : Nat) (l : List Item)
    (h : ∀ it ∈ l, upShape p cur mr it) : progressBytes l = 0 := by
  refine List.sum_eq_zero (fun x hx => ?_)
  rcases List.mem_map.mp hx with ⟨it, hit, hb⟩
  rcases h it hit with ⟨i, rfl⟩ | ⟨i, rfl⟩ <;> simp [progressBytesOf] at hb <;> omega

theorem shaped_createCalls (p cur mr : Nat) (l : List Item)
    (h : ∀ it ∈ l, upShape p cur mr it) : createCalls l = [] := by
  refine List.filterMap_eq_nil_iff.mpr (fun it hit => ?_)
  rcases h it hit with ⟨i, rfl⟩ | ⟨i, rfl⟩ <;> rfl

theorem shaped_no_completeCall (p cur mr : Nat) (l : List Item)
    (h : ∀ it ∈ l, upShape p cur mr it) (bk k uid : String) (ps : List CompletedPart) :
    Item.call (Call.completeCall bk k uid ps) ∉ l := by
  intro hmem
  rcases h _ hmem with ⟨i, hit⟩ | ⟨i, hit⟩ <;> simp at hit

theorem shaped_no_complete_evt (p cur mr : Nat) (l : List Item)
    (h : ∀ it ∈ l, upShape p cur mr it) (x : Nat) (r : Option String) :
    Item.evt (Event.complete x r) ∉ l := by
  intro hmem
  rcases h _ hmem with ⟨i, hit⟩ | ⟨i, hit⟩ <;> simp at hit

theorem abortItems_partNums (b : Backend) (e : String) : partNums (abortItems b e) = [] := by
  cases h : b.abortRes <;> simp [abortItems, h, partNums, partNumOf]

theorem abortItems_progressNums (b : Backend) (e : String) :
    progressNums (abortItems b e) = [] := by
  cases h : b.abortRes <;> simp [abortItems, h, progressNums, progressNumOf]

theorem abortItems_progressBytes (b : Backend) (e : String) :
    progressBytes (abortItems b e) = 0 := by
  cases h : b.abortRes <;> simp [abortItems, h, progressBytes, progressBytesOf]

theorem abortItems_createCalls (b : Backend) (e : String) :
    createCalls (abortItems b e) = [] := by
  cases h : b.abortRes <;> simp [abortItems, h, createCalls]

theorem abortItems_no_completeCall (b : Backend) (e : String) (bk k uid : String)
    (ps : List CompletedPart) : Item.call (Call.completeCall bk k uid ps) ∉ abortItems b e := by
  cases h : b.abortRes <;> simp [abortItems, h]

theorem abortItems_no_complete_evt (b : Backend) (e : String) (x : Nat) (r : Option String) :
    Item.evt (Event.complete x r) ∉ abortItems b e := by
  cases h : b.abortRes <;> simp [abortItems, h]

theorem uploadPart_shape (b : Backend) (pn mr : Nat) :
    ∀ it ∈ (uploadPart b pn pn mr).1, upShape pn pn mr it := by
  intro it hit
  exact uploadPartFuel_shape b pn pn mr mr 1 it hit

@[simp]
theorem partNums_nil : partNums [] = [] := rfl

@[simp]
theorem partNums_append (l l2 : List Item) : partNums (l ++ l2) = partNums l ++ partNums l2 :=
  List.filterMap_append l l2 partNumOf

@[simp]
theorem partNums_cons_call (c : Call) (l : List Item) :
    partNums (Item.call c :: l) = partNums l := rfl

@[simp]
theorem partNums_cons_progress (p n : Nat) (l : List Item) :
    partNums (Item.evt (Event.progress p n) :: l) = p :: partNums l := rfl

@[simp]
theorem partNums_cons_retry (p rn mr : Nat) (l : List Item) :
    partNums (Item.evt (Event.retry p rn mr) :: l) = p :: partNums l := rfl

@[simp]
theorem partNums_cons_complete (x : Nat) (r : Option String) (l : List Item) :
    partNums (Item.evt (Event.complete x r) :: l) = partNums l := rfl

@[simp]
theorem partNums_cons_error (e : String) (l : List Item) :
    partNums (Item.evt (Event.error e) :: l) = partNums l := rfl

@[simp]
theorem progressNums_nil : progressNums [] = [] := rfl

@[simp]
theorem progressNums_append (l l2 : List Item) :
    progressNums (l ++ l2) = progressNums l ++ progressNums l2 :=
  List.filterMap_append l l2 progressNumOf

@[simp]
theorem progressNums_cons_call (c : Call) (l : List Item) :
    progressNums (Item.call c :: l) = progressNums l := rfl

@[simp]
theorem progressNums_cons_progress (p n : Nat) (l : List Item) :
    progressNums (Item.evt (Event.progress p n) :: l) = p :: progressNums l := rfl

@[simp]
theorem progressNums_cons_retry (p rn mr : Nat) (l : List Item) :
    progressNums (Item.evt (Event.retry p rn mr) :: l) = progressNums l := rfl

@[simp]
theorem progressNums_cons_complete (x : Nat) (r : Option String) (l : List Item) :
    progressNums (Item.evt (Event.complete x r) :: l) = progressNums l := rfl

@[simp]
theorem progressNums_cons_error (e : String) (l : List Item) :
    progressNums (Item.evt (Event.error e) :: l) = progressNums l := rfl

@[simp]
theorem progressBytes_nil : progressBytes [] = 0 := rfl

@[simp]
theorem progressBytes_append (l l2 : List Item) :
    progressBytes (l ++ l2) = progressBytes l + progressBytes l2 := by
  simp [progressBytes]

@[simp]
theorem progressBytes_cons (it : Item) (l : List Item) :
    progressBytes (it :: l) = progressBytesOf it + progressBytes l := by
  simp [progressBytes]

@[simp]
theorem createCalls_nil : createCalls [] = [] := rfl

@[simp]
theorem createCalls_append (l l2 : List Item) :
    createCalls (l ++ l2) = createCalls l ++ createCalls l2 :=
  List.filterMap_append l l2 _

@[simp]
theorem createCalls_cons_evt (e : Event) (l : List Item) :
    createCalls (Item.evt e :: l) = createCalls l := rfl

@[simp]
theorem createCalls_cons_create (bk k ct : String) (l : List Item) :
    createCalls (Item.call (Call.create bk k ct) :: l)
      = Call.create bk k ct :: createCalls l := rfl

@[simp]
theorem createCalls_cons_upload (p t : Nat) (l : List Item) :
    createCalls (Item.call (Call.upload p t) :: l) = createCalls l := rfl

@[simp]
theorem createCalls_cons_completeCall (bk k uid : String) (ps : List CompletedPart)
    (l : List Item) :
    createCalls (Item.call (Call.completeCall bk k uid ps) :: l) = createCalls l := rfl

@[simp]
theorem createCalls_cons_abort (l : List Item) :
    createCalls (Item.call Call.abortUpload :: l) = createCalls l := rfl

theorem createCalls_runLoop_some (m : MultipartUpload) (path : String) (b : Backend)
    (detect : List Nat → String) :
    ∀ reads tb pn parts r,
      createCalls (runLoop m path b detect reads tb pn (some r) parts).items = [] := by
  intro reads
  induction reads with
  | nil =>
    intro tb pn parts r
    cases hc : b.completeRes <;> simp [runLoop, hc, Outcome.items]
  | cons head rest ih =>
    intro tb pn parts r
    cases head with
    | err e =>
      simp only [runLoop, Outcome.items]
      exact abortItems_createCalls b e
    | ok c =>
      rcases hup : uploadPart b pn pn m.maxRetries with ⟨upItems, upRes⟩
      have hsh : ∀ it ∈ upItems, upShape pn pn m.maxRetries it := by
        intro it hit
        exact uploadPart_shape b pn m.maxRetries it (by rw [hup]; exact hit)
      have hup0 := shaped_createCalls pn pn m.maxRetries upItems hsh
      cases upRes with
      | part p =>
        simp only [runLoop, hup, items_prependItems]
        simp [hup0, ih (tb + c.length) (pn + 1) (parts ++ [p]) r]
      | failed e =>
        simp only [runLoop, hup, Outcome.items]
        simp [hup0, abortItems_createCalls b e]
      | unreachable =>
        simp only [runLoop, hup, Outcome.items]
        simp [hup0, abortItems_createCalls b "could not upload part"]

/-- Claim C2: the remote session is created lazily, exactly on the first
successfully read non-empty chunk, as the first observable step, with the
content type sniffed from that chunk's bytes; a zero-byte input (immediate
end of stream) and an input whose first read fails never create a remote
session. -/
theorem session_created_on_first_nonempty_chunk (m : MultipartUpload) (path : String)
    (b : Backend) (detect : List Nat → String)
    (h1 : m.accessKey ≠ "") (h2 : m.secretKey ≠ "") (h3 : m.bucket ≠ "") :
    (run m path [] b detect).items = []
    ∧ (∀ e rest, createCalls (run m path (ReadResult.err e :: rest) b detect).items = [])
    ∧ (∀ c rest, c ≠ [] →
        (run m path (ReadResult.ok c :: rest) b detect).items.head?
            = some (Item.call (Call.create m.bucket path (detect c)))
        ∧ (createCalls (run m path (ReadResult.ok c :: rest) b detect).items).length = 1) := by
  refine ⟨?_, ?_, ?_⟩
  · rw [run_eq_runLoop m path [] b detect h1 h2 h3]
    rfl
  · intro e rest
    rw [run_eq_runLoop m path (ReadResult.err e :: rest) b detect h1 h2 h3]
    rfl
  · intro c rest hc
    rw [run_eq_runLoop m path (ReadResult.ok c :: rest) b detect h1 h2 h3]
    cases hcr : b.createRes with
    | error e =>
      simp [runLoop, hcr, Outcome.items, createCalls]
    | ok r =>
      rcases hup : uploadPart b 1 1 (applyDefaults m).maxRetries with ⟨upItems, upRes⟩
      have hsh : ∀ it ∈ upItems, upShape 1 1 (applyDefaults m).maxRetries it := by
        intro it hit
        exact uploadPart_shape b 1 (applyDefaults m).maxRetries it (by rw [hup]; exact hit)
      have hup0 := shaped_createCalls 1 1 (applyDefaults m).maxRetries upItems hsh
      cases upRes with
      | part p =>
        simp only [runLoop, hcr, hup, items_prependItems]
        constructor
        · simp
        · simp [hup0, createCalls_runLoop_some (applyDefaults m) path b detect rest
            c.length 2 [p] r]
      | failed e =>
        simp only [runLoop, hcr, hup, Outcome.items]
        constructor
        · simp
        · simp [hup0, abortItems_createCalls b e]
      | unreachable =>
        simp only [runLoop, hcr, hup, Outcome.items]
        constructor
        · simp
        · simp [hup0, abortItems_createCalls b "could not upload part"]

/-- Witness for claim C2: a concrete first chunk creates the session as
the first step with the sniffed content type, exactly once. -/
theorem session_created_on_first_nonempty_chunk_witness :
    (run cfgA "p" [ReadResult.ok [9]] bAllOk detA).items.head?
        = some (Item.call (Call.create "b" "p" "ct"))
    ∧ (createCalls (run cfgA "p" [ReadResult.ok [9]] bAllOk detA).items).length = 1 :=
  (session_created_on_first_nonempty_chunk cfgA "p" bAllOk detA (by decide) (by decide)
    (by decide)).2.2 [9] [] (by decide)

theorem runLoop_complete_bytes (m : MultipartUpload) (path : String) (b : Backend)
    (detect : List Nat → String) :
    ∀ reads tb pn res parts x r,
      Item.evt (Event.complete x r) ∈ (runLoop m path b detect reads tb pn res parts).items →
      x = tb + progressBytes (runLoop m path b detect reads tb pn res parts).items := by
  intro reads
  induction reads with
  | nil =>
    intro tb pn res parts x r hmem
    cases res with
    | none => simp [runLoop, Outcome.items] at hmem
    | some r0 =>
      cases hcRes : b.completeRes with
      | error e =>
        simp [runLoop, hcRes, Outcome.items] at hmem ⊢
        exact hmem.1
      | ok out =>
        simp [runLoop, hcRes, Outcome.items] at hmem ⊢
        exact hmem.1
  | cons head rest ih =>
    intro tb pn res parts x r hmem
    cases head with
    | err e =>
      cases res with
      | none => simp [runLoop, Outcome.items] at hmem
      | some r0 =>
        simp only [runLoop, Outcome.items] at hmem
        exact absurd hmem (abortItems_no_complete_evt b e x r)
    | ok c =>
      rcases hup : uploadPart b pn pn m.maxRetries with ⟨upItems, upRes⟩
      have hsh : ∀ it ∈ upItems, upShape pn pn m.maxRetries it := by
        intro it hit
        exact uploadPart_shape b pn m.maxRetries it (by rw [hup]; exact hit)
      have hnc := shaped_no_complete_evt pn pn m.maxRetries upItems hsh x r
      have hpb := shaped_progressBytes pn pn m.maxRetries upItems hsh
      cases res with
      | none =>
        cases hcr : b.createRes with
        | error e => simp [runLoop, hcr, Outcome.items] at hmem
        | ok r0 =>
          cases upRes with
          | part p =>
            simp only [runLoop, hcr, hup, items_prependItems] at hmem ⊢
            simp only [List.mem_append, List.mem_cons, List.mem_singleton, hnc,
              List.not_mem_nil, false_or, or_false, Item.evt.injEq, Event.complete.injEq,
              reduceCtorEq] at hmem
            have := ih (tb + c.length) (pn + 1) (some r0) (parts ++ [p]) x r hmem
            simp only [List.cons_append, List.nil_append, progressBytes_cons,
              progressBytes_append, progressBytes_nil, hpb, progressBytesOf]
            omega
          | failed e =>
            simp only [runLoop, hcr, hup, Outcome.items] at hmem
            simp [List.mem_append, List.mem_cons, hnc,
              abortItems_no_complete_evt b e x r] at hmem
          | unreachable =>
            simp only [runLoop, hcr, hup, Outcome.items] at hmem
            simp [List.mem_append, List.mem_cons, hnc,
              abortItems_no_complete_evt b "could not upload part" x r] at hmem
      | some r0 =>
        cases upRes with
        | part p =>
          simp only [runLoop, hup, items_prependItems] at hmem ⊢
          simp only [List.mem_append, List.mem_cons, List.mem_singleton, hnc,
            List.not_mem_nil, false_or, or_false, Item.evt.injEq, Event.complete.injEq,
            reduceCtorEq] at hmem
          have := ih (tb + c.length) (pn + 1) (some r0) (parts ++ [p]) x r hmem
          simp only [List.nil_append, progressBytes_cons, progressBytes_append,
            progressBytes_nil, hpb, progressBytesOf]
          omega
        | failed e =>
          simp only [runLoop, hup, Outcome.items] at hmem
          simp [List.mem_append, List.mem_cons, hnc,
            abortItems_no_complete_evt b e x r] at hmem
        | unreachable =>
          simp only [runLoop, hup, Outcome.items] at hmem
          simp [List.mem_append, List.mem_cons, hnc,
            abortItems_no_complete_evt b "could not upload part" x r] at hmem

/-- Claim C7: whenever a Complete event appears on the channel, its Bytes
field equals the sum of the Bytes fields of all Progress events of the
run (in particular for every successful upload). -/
theorem progress_sum_eq_complete_bytes (m : MultipartUpload) (path : String)
    (reads : List ReadResult) (b : Backend) (detect : List Nat → String) (x : Nat)
    (r : Option String)
    (h : Item.evt (Event.complete x r) ∈ (run m path reads b detect).items) :
    x = progressBytes (run m path reads b detect).items := by
  by_cases hv : 0 < (missingFields (applyDefaults m)).length
  · simp [run, hv, Outcome.items] at h
  · simp only [run, if_neg hv] at h ⊢
    simpa using runLoop_complete_bytes (applyDefaults m) path b detect reads 0 1 none [] x r h

/-- Witness for claim C7 on a concrete successful two-part upload. -/
theorem progress_sum_eq_complete_bytes_witness :
    5 = progressBytes
        (run cfgA "p" [ReadResult.ok [1, 2, 3], ReadResult.ok [4, 5]] bAllOk detA).items :=
  progress_sum_eq_complete_bytes cfgA "p" [ReadResult.ok [1, 2, 3], ReadResult.ok [4, 5]]
    bAllOk detA 5 (some "fin") (by decide)

/-- Claim C3 (amended): once the remote session exists (state Active), a
failed read triggers Abort and then a single terminal Error carrying the
original cause, and a part that exhausts all retry attempts triggers the
same abort-then-error tail after the upload attempts; when Abort succeeds
the Error carries only the original cause, and when Abort fails the Error
message combines the original cause with the abort failure. -/
theorem abort_before_terminal_error_in_active (m : MultipartUpload) (path : String)
    (b : Backend) (detect : List Nat → String) (tb pn : Nat) (parts : List CompletedPart)
    (r : CreateOut) :
    (∀ e rest, runLoop m path b detect (ReadResult.err e :: rest) tb pn (some r) parts
        = Outcome.done (abortItems b e))
    ∧ (∀ c rest, 1 ≤ m.maxRetries →
        (∀ i, 1 ≤ i → i ≤ m.maxRetries → isErr (b.uploadRes pn i) = true) →
        runLoop m path b detect (ReadResult.ok c :: rest) tb pn (some r) parts
          = Outcome.done ((uploadPart b pn pn m.maxRetries).1
              ++ abortItems b (errOf (b.uploadRes pn m.maxRetries))))
    ∧ (∀ e, b.abortRes = Except.ok () →
        abortItems b e = [Item.call Call.abortUpload, Item.evt (Event.error e)])
    ∧ (∀ e ae, b.abortRes = Except.error ae →
        abortItems b e
          = [Item.call Call.abortUpload, Item.evt (Event.error (combineMsg e ae))]) := by
  refine ⟨?_, ?_, ?_, ?_⟩
  · intro e rest
    simp [runLoop]
  · intro c rest hmr hall
    obtain ⟨htr, hres⟩ := uploadPartFuel_all_fail b pn pn m.maxRetries m.maxRetries 1
      (by omega) (le_refl 1) hmr hall
    rcases hup : uploadPart b pn pn m.maxRetries with ⟨ui, ur⟩
    have hur : ur = UpRes.failed (errOf (b.uploadRes pn m.maxRetries)) := by
      rw [uploadPart] at hup
      rw [hup] at hres
      exact hres
    subst hur
    simp [runLoop, hup]
  · intro e h
    simp [abortItems, h]
  · intro e ae h
    simp [abortItems, h]

/-- Witness for the amended claim C3: with a session present, an
always-failing backend whose Abort also fails produces the upload
attempts, then the Abort call, then a single Error combining both causes. -/
theorem abort_before_terminal_error_in_active_witness :
    runLoop (applyDefaults cfgA) "p" bAllFail detA [ReadResult.ok [7]] 0 1 (some crA) []
      = Outcome.done ((uploadPart bAllFail 1 1 3).1 ++ abortItems bAllFail "up")
    ∧ abortItems bAllFail "up"
      = [Item.call Call.abortUpload,
         Item.evt (Event.error
           "upload error: up, as well as an error aborting the upload: ab")] := by
  have h := abort_before_terminal_error_in_active (applyDefaults cfgA) "p" bAllFail detA
    0 1 [] crA
  exact ⟨h.2.1 [7] [] (by decide) (fun i h1 h2 => rfl), h.2.2.2 "up" "ab" rfl⟩

theorem chain_stepRel_const (a : Nat) :
    ∀ l l2, (∀ x ∈ l, x = a) → List.Chain stepRel a l2 → List.Chain stepRel a (l ++ l2) := by
  intro l
  induction l with
  | nil => intro l2 h hc; simpa using hc
  | cons y ys ih =>
    intro l2 h hc
    have hy : y = a := h y (List.mem_cons_self y ys)
    subst hy
    exact List.Chain.cons (Or.inl rfl)
      (ih l2 (fun x hx => h x (List.mem_cons_of_mem y hx)) hc)

theorem head_some_mem {α : Type} (l : List α) (x : α) (h : l.head? = some x) : x ∈ l := by
  cases l with
  | nil => simp at h
  | cons y ys =>
    simp only [List.head?_cons, Option.some.injEq] at h
    subst h
    exact List.mem_cons_self y ys

theorem head_append_all (a : Nat) (l l2 : List Nat) (h : ∀ x ∈ l, x = a)
    (h2 : ∀ x, l2.head? = some x → x = a) : ∀ x, (l ++ l2).head? = some x → x = a := by
  cases l with
  | nil => simpa using h2
  | cons y ys =>
    intro x hx
    simp only [List.cons_append, List.head?_cons, Option.some.injEq] at hx
    subst hx
    exact h y (List.mem_cons_self y ys)

theorem parts_snoc_map (parts : List CompletedPart) (p : CompletedPart) (pn : Nat)
    (h1 : 1 ≤ pn) (hparts : parts.map CompletedPart.partNumber = List.range' 1 (pn - 1))
    (hp : p.partNumber = pn) :
    (parts ++ [p]).map CompletedPart.partNumber = List.range' 1 pn := by
  rw [List.map_append, hparts]
  have h2 : pn - 1 + 1 = pn := by omega
  have h3 := @List.range'_concat 1 1 (pn - 1)
  rw [h2] at h3
  have h4 : 1 + 1 * (pn - 1) = pn := by omega
  rw [h4] at h3
  simp only [List.map_cons, List.map_nil, hp]
  rw [h3]

theorem runLoop_part_numbers (m : MultipartUpload) (path : String) (b : Backend)
    (detect : List Nat → String) :
    ∀ reads tb pn res parts, 1 ≤ pn →
      parts.map CompletedPart.partNumber = List.range' 1 (pn - 1) →
      List.Chain stepRel pn (partNums (runLoop m path b detect reads tb pn res parts).items)
      ∧ (∀ x, (partNums (runLoop m path b detect reads tb pn res parts).items).head? = some x →
          x = pn)
      ∧ (∃ k, progressNums (runLoop m path b detect reads tb pn res parts).items
          = List.range' pn k)
      ∧ (∀ bk k uid ps,
          Item.call (Call.completeCall bk k uid ps)
              ∈ (runLoop m path b detect reads tb pn res parts).items →
          ps.map CompletedPart.partNumber = List.range' 1 ps.length) := by
  intro reads
  induction reads with
  | nil =>
    intro tb pn res parts hpn hparts
    cases res with
    | none =>
      refine ⟨?_, ?_, ⟨0, ?_⟩, ?_⟩ <;> simp [runLoop, Outcome.items, List.Chain.nil]
    | some r0 =>
      have hlen : parts.length = pn - 1 := by
        have := congrArg List.length hparts
        simpa using this
      cases hcRes : b.completeRes with
      | error e =>
        refine ⟨?_, ?_, ⟨0, ?_⟩, ?_⟩
        · simp [runLoop, hcRes, Outcome.items, List.Chain.nil]
        · simp [runLoop, hcRes, Outcome.items]
        · simp [runLoop, hcRes, Outcome.items]
        · intro bk k uid ps hmem
          simp [runLoop, hcRes, Outcome.items] at hmem
          obtain ⟨hb, hk, hu, hps⟩ := hmem
          subst hps
          rw [hparts, hlen]
      | ok out =>
        refine ⟨?_, ?_, ⟨0, ?_⟩, ?_⟩
        · simp [runLoop, hcRes, Outcome.items, List.Chain.nil]
        · simp [runLoop, hcRes, Outcome.items]
        · simp [runLoop, hcRes, Outcome.items]
        · intro bk k uid ps hmem
          simp [runLoop, hcRes, Outcome.items] at hmem
          obtain ⟨hb, hk, hu, hps⟩ := hmem
          subst hps
          rw [hparts, hlen]
  | cons head rest ih =>
    intro tb pn res parts hpn hparts
    cases head with
    | err e =>
      cases res with
      | none =>
        refine ⟨?_, ?_, ⟨0, ?_⟩, ?_⟩ <;> simp [runLoop, Outcome.items, List.Chain.nil]
      | some r0 =>
        refine ⟨?_, ?_, ⟨0, ?_⟩, ?_⟩
        · simp only [runLoop, Outcome.items, abortItems_partNums]
          exact List.Chain.nil
        · simp [runLoop, Outcome.items, abortItems_partNums]
        · simp [runLoop, Outcome.items, abortItems_progressNums]
        · intro bk k uid ps hmem
          simp only [runLoop, Outcome.items] at hmem
          exact absurd hmem (abortItems_no_completeCall b e bk k uid ps)
    | ok c =>
      rcases hup : uploadPart b pn pn m.maxRetries with ⟨upItems, upRes⟩
      have hsh : ∀ it ∈ upItems, upShape pn pn m.maxRetries it := by
        intro it hit
        exact uploadPart_shape b pn m.maxRetries it (by rw [hup]; exact hit)
      have hall := shaped_partNums pn pn m.maxRetries upItems hsh
      have hpr := shaped_progressNums pn pn m.maxRetries upItems hsh
      have hncc := fun bk k uid ps =>
        shaped_no_completeCall pn pn m.maxRetries upItems hsh bk k uid ps
      cases res with
      | none =>
        cases hcr : b.createRes with
        | error e =>
          refine ⟨?_, ?_, ⟨0, ?_⟩, ?_⟩ <;> simp [runLoop, hcr, Outcome.items, List.Chain.nil]
        | ok r0 =>
          cases upRes with
          | part p =>
            have hpnum : p.partNumber = pn := by
              refine uploadPartFuel_part_number b pn pn m.maxRetries m.maxRetries 1 p ?_
              have : (uploadPart b pn pn m.maxRetries).2 = UpRes.part p := by rw [hup]
              rw [uploadPart] at this
              exact this
            obtain ⟨ihC, ihH, ⟨k, ihP⟩, ihCC⟩ := ih (tb + c.length) (pn + 1) (some r0)
              (parts ++ [p]) (by omega)
              (by simpa using parts_snoc_map parts p pn hpn hparts hpnum)
            have htail : List.Chain stepRel pn (pn :: partNums
                (runLoop m path b detect rest (tb + c.length) (pn + 1) (some r0)
                  (parts ++ [p])).items) := by
              refine List.chain_cons.mpr ⟨Or.inl rfl, ?_⟩
              cases hpn2 : partNums (runLoop m path b detect rest (tb + c.length) (pn + 1)
                  (some r0) (parts ++ [p])).items with
              | nil => exact List.Chain.nil
              | cons y ys =>
                have hy : y = pn + 1 := ihH y (by rw [hpn2]; rfl)
                rw [hpn2] at ihC
                refine List.chain_cons.mpr ⟨Or.inr (by omega), ?_⟩
                exact (List.chain_cons.mp ihC).2
            refine ⟨?_, ?_, ⟨k + 1, ?_⟩, ?_⟩
            · simp only [runLoop, hcr, hup, items_prependItems, List.cons_append,
                List.nil_append, List.append_assoc, List.singleton_append,
                partNums_cons_call, partNums_append, partNums_cons_progress, partNums_nil]
              exact chain_stepRel_const pn (partNums upItems) _ hall htail
            · simp only [runLoop, hcr, hup, items_prependItems, List.cons_append,
                List.nil_append, List.append_assoc, List.singleton_append,
                partNums_cons_call, partNums_append, partNums_cons_progress, partNums_nil]
              exact head_append_all pn (partNums upItems) _ hall
                (fun x hx => by
                  simp only [List.head?_cons, Option.some.injEq] at hx
                  omega)
            · simp only [runLoop, hcr, hup, items_prependItems, List.cons_append,
                List.nil_append, List.append_assoc, List.singleton_append,
                progressNums_cons_call, progressNums_append, progressNums_cons_progress,
                progressNums_nil, hpr]
              rw [ihP, List.range'_succ]
            · intro bk k' uid ps hmem
              simp only [runLoop, hcr, hup, items_prependItems] at hmem
              simp [List.mem_append, List.mem_cons, hncc bk k' uid ps] at hmem
              exact ihCC bk k' uid ps hmem
          | failed e =>
            refine ⟨?_, ?_, ⟨0, ?_⟩, ?_⟩
            · simp only [runLoop, hcr, hup, Outcome.items, List.cons_append,
                List.nil_append, partNums_cons_call, partNums_append, abortItems_partNums,
                List.append_nil]
              have := chain_stepRel_const pn (partNums upItems) [] hall List.Chain.nil
              simpa using this
            · simp only [runLoop, hcr, hup, Outcome.items, List.cons_append,
                List.nil_append, partNums_cons_call, partNums_append, abortItems_partNums,
                List.append_nil]
              intro x hx
              exact hall x (head_some_mem _ x hx)
            · simp [runLoop, hcr, hup, Outcome.items, hpr, abortItems_progressNums]
            · intro bk k' uid ps hmem
              simp only [runLoop, hcr, hup, Outcome.items, List.cons_append,
                List.nil_append, List.mem_cons, List.mem_append] at hmem
              rcases hmem with hmem | hmem | hmem
              · simp at hmem
              · exact absurd hmem (hncc bk k' uid ps)
              · exact absurd hmem (abortItems_no_completeCall b e bk k' uid ps)
          | unreachable =>
            refine ⟨?_, ?_, ⟨0, ?_⟩, ?_⟩
            · simp only [runLoop, hcr, hup, Outcome.items, List.cons_append,
                List.nil_append, partNums_cons_call, partNums_append, abortItems_partNums,
                List.append_nil]
              have := chain_stepRel_const pn (partNums upItems) [] hall List.Chain.nil
              simpa using this
            · simp only [runLoop, hcr, hup, Outcome.items, List.cons_append,
                List.nil_append, partNums_cons_call, partNums_append, abortItems_partNums,
                List.append_nil]
              intro x hx
              exact hall x (head_some_mem _ x hx)
            · simp [runLoop, hcr, hup, Outcome.items, hpr, abortItems_progressNums]
            · intro bk k' uid ps hmem
              simp only [runLoop, hcr, hup, Outcome.items, List.cons_append,
                List.nil_append, List.mem_cons, List.mem_append] at hmem
              rcases hmem with hmem | hmem | hmem
              · simp at hmem
              · exact absurd hmem (hncc bk k' uid ps)
              · exact absurd hmem
                  (abortItems_no_completeCall b "could not upload part" bk k' uid ps)
      | some r0 =>
        cases upRes with
        | part p =>
          have hpnum : p.partNumber = pn := by
            refine uploadPartFuel_part_number b pn pn m.maxRetries m.maxRetries 1 p ?_
            have : (uploadPart b pn pn m.maxRetries).2 = UpRes.part p := by rw [hup]
            rw [uploadPart] at this
            exact this
          obtain ⟨ihC, ihH, ⟨k, ihP⟩, ihCC⟩ := ih (tb + c.length) (pn + 1) (some r0)
            (parts ++ [p]) (by omega)
            (by simpa using parts_snoc_map parts p pn hpn hparts hpnum)
          have htail : List.Chain stepRel pn (pn :: partNums
              (runLoop m path b detect rest (tb + c.length) (pn + 1) (some r0)
                (parts ++ [p])).items) := by
            refine List.chain_cons.mpr ⟨Or.inl rfl, ?_⟩
            cases hpn2 : partNums (runLoop m path b detect rest (tb + c.length) (pn + 1)
                (some r0) (parts ++ [p])).items with
            | nil => exact List.Chain.nil
            | cons y ys =>
              have hy : y = pn + 1 := ihH y (by rw [hpn2]; rfl)
              rw [hpn2] at ihC
              refine List.chain_cons.mpr ⟨Or.inr (by omega), ?_⟩
              exact (List.chain_cons.mp ihC).2
          refine ⟨?_, ?_, ⟨k + 1, ?_⟩, ?_⟩
          · simp only [runLoop, hup, items_prependItems, List.cons_append, List.nil_append,
              List.append_assoc, List.singleton_append, partNums_append,
              partNums_cons_progress, partNums_nil]
            exact chain_stepRel_const pn (partNums upItems) _ hall htail
          · simp only [runLoop, hup, items_prependItems, List.cons_append, List.nil_append,
              List.append_assoc, List.singleton_append, partNums_append,
              partNums_cons_progress, partNums_nil]
            exact head_append_all pn (partNums upItems) _ hall
              (fun x hx => by
                simp only [List.head?_cons, Option.some.injEq] at hx
                omega)
          · simp only [runLoop, hup, items_prependItems, List.cons_append, List.nil_append,
              List.append_assoc, List.singleton_append, progressNums_append,
              progressNums_cons_progress, progressNums_nil, hpr]
            rw [ihP, List.range'_succ]
          · intro bk k' uid ps hmem
            simp only [runLoop, hup, items_prependItems] at hmem
            simp [List.mem_append, List.mem_cons, hncc bk k' uid ps] at hmem
            exact ihCC bk k' uid ps hmem
        | failed e =>
          refine ⟨?_, ?_, ⟨0, ?_⟩, ?_⟩
          · simp only [runLoop, hup, Outcome.items, List.nil_append, partNums_append,
              abortItems_partNums, List.append_nil]
            have := chain_stepRel_const pn (partNums upItems) [] hall List.Chain.nil
            simpa using this
          · simp only [runLoop, hup, Outcome.items, List.nil_append, partNums_append,
              abortItems_partNums, List.append_nil]
            intro x hx
            exact hall x (head_some_mem _ x hx)
          · simp [runLoop, hup, Outcome.items, hpr, abortItems_progressNums]
          · intro bk k' uid ps hmem
            simp only [runLoop, hup, Outcome.items, List.nil_append, List.mem_append]
              at hmem
            rcases hmem with hmem | hmem
            · exact absurd hmem (hncc bk k' uid ps)
            · exact absurd hmem (abortItems_no_completeCall b e bk k' uid ps)
        | unreachable =>
          refine ⟨?_, ?_, ⟨0, ?_⟩, ?_⟩
          · simp only [runLoop, hup, Outcome.items, List.nil_append, partNums_append,
              abortItems_partNums, List.append_nil]
            have := chain_stepRel_const pn (partNums upItems) [] hall List.Chain.nil
            simpa using this
          · simp only [runLoop, hup, Outcome.items, List.nil_append, partNums_append,
              abortItems_partNums, List.append_nil]
            intro x hx
            exact hall x (head_some_mem _ x hx)
          · simp [runLoop, hup, Outcome.items, hpr, abortItems_progressNums]
          · intro bk k' uid ps hmem
            simp only [runLoop, hup, Outcome.items, List.nil_append, List.mem_append]
              at hmem
            rcases hmem with hmem | hmem
            · exact absurd hmem (hncc bk k' uid ps)
            · exact absurd hmem
                (abortItems_no_completeCall b "could not upload part" bk k' uid ps)

/-- Claim C8 (amended): part numbers observed in events start at 1 and
are non-decreasing with no gaps (a Retry repeats the current part number);
the part numbers of the Progress events are exactly 1, 2, ... in order
(strictly increasing, no gaps); and the completed-parts list handed to the
completion call is 1, 2, ..., in ascending part-number order. -/
theorem part_numbers_monotone_and_sorted (m : MultipartUpload) (path : String)
    (reads : List ReadResult) (b : Backend) (detect : List Nat → String) :
    List.Chain stepRel 1 (partNums (run m path reads b detect).items)
    ∧ (∀ x, (partNums (run m path reads b detect).items).head? = some x → x = 1)
    ∧ progressNums (run m path reads b detect).items
        = List.range' 1 (progressNums (run m path reads b detect).items).length
    ∧ (∀ bk k uid ps,
        Item.call (Call.completeCall bk k uid ps) ∈ (run m path reads b detect).items →
        ps.map CompletedPart.partNumber = List.range' 1 ps.length) := by
  by_cases hv : 0 < (missingFields (applyDefaults m)).length
  · refine ⟨?_, ?_, ?_, ?_⟩ <;> simp [run, hv, Outcome.items, List.Chain.nil]
  · obtain ⟨hC, hH, ⟨k, hP⟩, hCC⟩ := runLoop_part_numbers (applyDefaults m) path b detect
      reads 0 1 none [] (le_refl 1) (by simp)
    refine ⟨?_, ?_, ?_, ?_⟩
    · simpa [run, hv] using hC
    · simpa [run, hv] using hH
    · simp only [run, if_neg hv]
      rw [hP, List.length_range']
    · simpa [run, hv] using hCC

theorem chunkFuel_length (P : Nat) (hP : 1 ≤ P) :
    ∀ fuel data, data ≠ [] → data.length ≤ fuel →
      (chunkFuel P fuel data).length = (data.length + P - 1) / P := by
  intro fuel
  induction fuel with
  | zero =>
    intro data hne hlen
    cases data with
    | nil => exact absurd rfl hne
    | cons d ds => simp at hlen
  | succ fuel ih =>
    intro data hne hlen
    cases data with
    | nil => exact absurd rfl hne
    | cons d ds =>
      simp only [chunkFuel, List.length_cons]
      simp only [List.length_cons] at hlen
      by_cases hL : ds.length + 1 ≤ P
      · have hdrop : (d :: ds).drop P = [] := List.drop_eq_nil_of_le (by simp; omega)
        rw [hdrop, chunkFuel_nil]
        have h1 : (1 : Nat) ≤ (ds.length + 1 + P - 1) / P := by
          rw [Nat.le_div_iff_mul_le (by omega)]
          omega
        have h2 : (ds.length + 1 + P - 1) / P < 2 := by
          rw [Nat.div_lt_iff_lt_mul (by omega)]
          omega
        simp only [List.length_nil]
        omega
      · have hne2 : (d :: ds).drop P ≠ [] := by
          intro h0
          have h0l := congrArg List.length h0
          simp at h0l
          omega
        have hlen2 : ((d :: ds).drop P).length ≤ fuel := by
          simp
          omega
        have hdl : ((d :: ds).drop P).length = ds.length + 1 - P := by simp
        rw [ih _ hne2 hlen2, hdl]
        have hx : ds.length + 1 - P + P - 1 = ds.length + 1 - 1 := by omega
        rw [hx]
        have hy : ds.length + 1 + P - 1 = (ds.length + 1 - 1) + P := by omega
        rw [hy, Nat.add_div_right _ (by omega)]

theorem chunkFuel_bounded (P : Nat) (hP : 1 ≤ P) :
    ∀ fuel data c, c ∈ chunkFuel P fuel data → c.length ≤ P ∧ c ≠ [] := by
  intro fuel
  induction fuel with
  | zero => intro data c hc; simp [chunkFuel] at hc
  | succ fuel ih =>
    intro data c hc
    cases data with
    | nil => simp [chunkFuel] at hc
    | cons d ds =>
      simp only [chunkFuel, List.mem_cons] at hc
      rcases hc with rfl | hc
      · constructor
        · rw [List.length_take]
          exact Nat.min_le_left P _
        · cases P with
          | zero => omega
          | succ P2 => simp
      · exact ih _ c hc

theorem chunkFuel_flatten (P : Nat) (hP : 1 ≤ P) :
    ∀ fuel data, data.length ≤ fuel → (chunkFuel P fuel data).flatten = data := by
  intro fuel
  induction fuel with
  | zero =>
    intro data hlen
    cases data with
    | nil => rfl
    | cons d ds => simp at hlen
  | succ fuel ih =>
    intro data hlen
    cases data with
    | nil => rfl
    | cons d ds =>
      simp only [chunkFuel, List.flatten_cons]
      rw [ih ((d :: ds).drop P) (by simp at hlen ⊢; omega)]
      exact List.take_append_drop P (d :: ds)

theorem uploadPart_first_ok (b : Backend) (p cur mr : Nat) (t : String) (hmr : 1 ≤ mr)
    (ht : b.uploadRes p 1 = Except.ok t) :
    uploadPart b p cur mr = ([Item.call (Call.upload p 1)], UpRes.part ⟨t, p⟩) := by
  rw [uploadPart]
  cases mr with
  | zero => omega
  | succ mr2 => simp [uploadPartFuel, ht]

theorem runLoop_success_progress (m : MultipartUpload) (path : String) (b : Backend)
    (detect : List Nat → String) (cr : CreateOut) (hmr : 1 ≤ m.maxRetries)
    (hcr : b.createRes = Except.ok cr)
    (hup : ∀ pq, ∃ t, b.uploadRes pq 1 = Except.ok t) :
    ∀ (cs : List (List Nat)) (tb pn : Nat) (res : Option CreateOut)
      (parts : List CompletedPart),
      (progressNums (runLoop m path b detect (cs.map ReadResult.ok) tb pn res parts).items).length
        = cs.length := by
  intro cs
  induction cs with
  | nil =>
    intro tb pn res parts
    cases res with
    | none => simp [runLoop, Outcome.items]
    | some r0 => cases hc : b.completeRes <;> simp [runLoop, hc, Outcome.items]
  | cons c cs ihc =>
    intro tb pn res parts
    obtain ⟨t, ht⟩ := hup pn
    have hu1 := uploadPart_first_ok b pn pn m.maxRetries t hmr ht
    cases res with
    | none =>
      simp only [List.map_cons, runLoop, hcr, hu1, items_prependItems]
      simp [ihc (tb + c.length) (pn + 1) (some cr) (parts ++ [⟨t, pn⟩])]
    | some r0 =>
      simp only [List.map_cons, runLoop, hu1, items_prependItems]
      simp [ihc (tb + c.length) (pn + 1) (some r0) (parts ++ [⟨t, pn⟩])]

/-- Counterexample to claim C6 as stated: run makes exactly one part per
reader.Read call, and io.Reader permits short reads, so a 2-byte source
delivered as two 1-byte reads into the 4-byte part buffer produces 2
parts, while ceil(S / P) = ceil(2 / 4) = 1. -/
theorem short_reads_break_ceil_part_count :
    (progressNums
        (run cfgB "p" [ReadResult.ok [1], ReadResult.ok [2]] bAllOk detA).items).length = 2
    ∧ (2 + cfgB.maxPartSize - 1) / cfgB.maxPartSize = 1
    ∧ (progressNums
          (run cfgB "p" [ReadResult.ok [1], ReadResult.ok [2]] bAllOk detA).items).length
        ≠ (2 + cfgB.maxPartSize - 1) / cfgB.maxPartSize := by
  refine ⟨rfl, rfl, by decide⟩

/-- Claim C6 (amended): every successfully read non-empty chunk yields
exactly one part, so against a backend that accepts every part the number
of parts (Progress events) equals the number of successful reads, whatever
their sizes; the count equals ceil(S / P) exactly for a full-read source,
one that returns min(P, remaining) bytes per read: its chunk sequence has
ceil(S / P) chunks, each at most P bytes and non-empty, concatenating back
to the source in order (the source is consumed exactly once), and the run
emits exactly that many Progress events. -/
theorem parts_per_read_ceil_only_for_full_reads (data : List Nat) (cs : List (List Nat))
    (P : Nat) (m : MultipartUpload) (path : String) (b : Backend)
    (detect : List Nat → String) (cr : CreateOut)
    (hP : 1 ≤ P) (hd : data ≠ [])
    (hcs : ∀ c ∈ cs, c.length ≤ P ∧ c ≠ [])
    (h1 : m.accessKey ≠ "") (h2 : m.secretKey ≠ "") (h3 : m.bucket ≠ "")
    (hcr : b.createRes = Except.ok cr)
    (hup : ∀ pq, ∃ t, b.uploadRes pq 1 = Except.ok t) :
    (progressNums (run m path (cs.map ReadResult.ok) b detect).items).length = cs.length
    ∧ (chunkList data P).length = (data.length + P - 1) / P
    ∧ (∀ c ∈ chunkList data P, c.length ≤ P ∧ c ≠ [])
    ∧ (chunkList data P).flatten = data
    ∧ (progressNums (run m path ((chunkList data P).map ReadResult.ok) b detect).items).length
        = (data.length + P - 1) / P := by
  have hlen := chunkFuel_length P hP data.length data hd (le_refl _)
  refine ⟨?_, hlen, ?_, ?_, ?_⟩
  · rw [run_eq_runLoop m path _ b detect h1 h2 h3]
    exact runLoop_success_progress (applyDefaults m) path b detect cr
      (one_le_applyDefaults_maxRetries m) hcr hup cs 0 1 none []
  · intro c hc
    exact chunkFuel_bounded P hP data.length data c hc
  · exact chunkFuel_flatten P hP data.length data (le_refl _)
  · rw [run_eq_runLoop m path _ b detect h1 h2 h3]
    rw [runLoop_success_progress (applyDefaults m) path b detect cr
      (one_le_applyDefaults_maxRetries m) hcr hup (chunkList data P) 0 1 none []]
    exact hlen

/-- Witness for the amended claim C6: two short reads give 2 parts, and a
5-byte full-read source with part size 2 gives 3 = ceil(5 / 2) chunks that
reassemble the source, with 3 Progress events on a successful run. -/
theorem parts_per_read_ceil_only_for_full_reads_witness :
    (progressNums (run cfgA "p" ([[1], [2]].map ReadResult.ok) bAllOk detA).items).length = 2
    ∧ (chunkList [1, 2, 3, 4, 5] 2).length = 3
    ∧ (chunkList [1, 2, 3, 4, 5] 2).flatten = [1, 2, 3, 4, 5]
    ∧ (progressNums
        (run cfgA "p" ((chunkList [1, 2, 3, 4, 5] 2).map ReadResult.ok) bAllOk detA).items).length
      = 3 := by
  obtain ⟨hA, hB, hC, hD, hE⟩ := parts_per_read_ceil_only_for_full_reads [1, 2, 3, 4, 5]
    [[1], [2]] 2 cfgA "p" bAllOk detA crA (by decide) (by decide) (by decide) (by decide)
    (by decide) (by decide) rfl (fun pq => ⟨"et", rfl⟩)
  exact ⟨hA, hB, hD, hE⟩

end Pipedream
